import Mathlib

/-!
# Verification of the BioPython-Workshop FASTA parsing and analysis snippets

Shallow embedding of the hand-rolled FASTA parsing loop (`sequences_dict`
parsing cell of the FASTA notebook), the `calculate_gc_content` functions
(one per notebook), and the try/except demonstration cell of the basics
notebook.  Lines of text are modelled as `List Char`; the Python `dict`
is modelled as an insertion-ordered association list with Python's
update-in-place / append-if-new semantics.
-/

namespace BioWorkshop

/-- A line of text, modelled as a list of characters. -/
abbrev Line := List Char

/-- Characters removed by Python's `str.strip()` (ASCII whitespace). -/
def isPySpace (c : Char) : Bool :=
  c == ' ' || c == '\t' || c == '\n' || c == '\r' || c == '\x0b' || c == '\x0c'

/-- Python's `line.strip()`: drop leading and trailing whitespace. -/
def pyStrip (s : Line) : Line :=
  ((s.dropWhile isPySpace).reverse.dropWhile isPySpace).reverse

/-- Python's `line.startswith('>')` on a string modelled as a char list. -/
def startsWithGt : Line → Bool
  | [] => false
  | c :: _ => c == '>'

/-- Python's `str.upper()` on a single ASCII character: lowercase letters
are shifted to uppercase, everything else is unchanged. -/
def pyToUpper (c : Char) : Char :=
  if 97 ≤ c.toNat ∧ c.toNat ≤ 122 then Char.ofNat (c.toNat - 32) else c

/-- Python's `str.lower()` on a single ASCII character. -/
def pyToLower (c : Char) : Char :=
  if 65 ≤ c.toNat ∧ c.toNat ≤ 90 then Char.ofNat (c.toNat + 32) else c

/-- Python's `str.upper()` over a whole string. -/
def pyUpper (s : Line) : Line := s.map pyToUpper

/-- The Python `dict` modelled as an insertion-ordered association list. -/
abbrev Dict := List (Line × Line)

/-- The keys of the dictionary, in insertion order (`dict.keys()`). -/
def dictKeys (d : Dict) : List Line := d.map Prod.fst

/-- Python `d[k] = v`: update the value in place when the key is present
(its position is preserved), otherwise append the new binding at the end. -/
def dictSet (d : Dict) (k v : Line) : Dict :=
  if k ∈ dictKeys d then d.map (fun p => if p.1 = k then (p.1, v) else p)
  else d ++ [(k, v)]

/-- Python `d[k] += v` (string concatenation) for a key that is present:
the matching entry's value is extended by `v`.  In the parsing loop this is
only reached with `k` already a key of `d` (the header branch inserted it);
on an absent key the embedding leaves `d` unchanged where Python would
raise `KeyError`, a situation the loop never creates. -/
def dictAddTo (d : Dict) (k v : Line) : Dict :=
  d.map (fun p => if p.1 = k then (p.1, p.2 ++ v) else p)

/-- Python `d.get(k)` / `d[k]` as a total lookup returning an `Option`. -/
def dlookup : Dict → Line → Option Line
  | [], _ => none
  | p :: rest, k => if p.1 = k then some p.2 else dlookup rest k

/-- The state of the FASTA parsing cell: the dictionary being built
(`sequences_dict`), the tracked current header (`current_sequence_id`),
and the warnings printed so far (one entry per reported malformed line,
recording the stripped line named by the printed warning). -/
structure ParseState where
  sequences_dict : Dict
  current_sequence_id : Option Line
  warnings : List Line
deriving Repr, DecidableEq

/-- One iteration of the parsing loop body of the `sequences_dict` cell:
strip the line; skip it if blank; a line starting with `'>'` starts a new
record (`current_sequence_id = line[1:]`; `sequences_dict[id] = ""`);
otherwise append the uppercased line to the current record, or, when no
header has been seen yet, print a warning naming the line and skip it. -/
def parseStep (st : ParseState) (rawLine : Line) : ParseState :=
  let line := pyStrip rawLine
  if line = [] then st
  else if startsWithGt line then
    let id := line.drop 1
    { sequences_dict := dictSet st.sequences_dict id [],
      current_sequence_id := some id,
      warnings := st.warnings }
  else
    match st.current_sequence_id with
    | some id =>
        { sequences_dict := dictAddTo st.sequences_dict id (pyUpper line),
          current_sequence_id := some id,
          warnings := st.warnings }
    | none => { st with warnings := st.warnings ++ [line] }

/-- The initial state of the cell: empty dict, `current_sequence_id = None`. -/
def initState : ParseState := ⟨[], none, []⟩

/-- The whole parsing loop: fold the loop body over the file's lines. -/
def parseFasta (lines : List Line) : ParseState :=
  lines.foldl parseStep initState

end BioWorkshop

namespace BioWorkshop

/-! Spec-side description of the parser, written from the spec's words,
used to state the refinement claims. -/

/-- From the spec's words: the concatenation, in file order, of the
uppercased, whitespace-stripped, non-blank sequence lines up to the next
header (or end of input). -/
def gatherSeq : List Line → Line
  | [] => []
  | rawLine :: rest =>
    let l := pyStrip rawLine
    if startsWithGt l then []
    else if l = [] then gatherSeq rest
    else pyUpper l ++ gatherSeq rest

/-- From the spec's words: the records of the input, in file order —
one per header line, keyed by the text after the `'>'` marker of the
stripped header line, valued by the gathered sequence of its block. -/
def specRecords : List Line → Dict
  | [] => []
  | rawLine :: rest =>
    let l := pyStrip rawLine
    if startsWithGt l then (l.drop 1, gatherSeq rest) :: specRecords rest
    else specRecords rest

/-- The header identifiers of the input, in file order. -/
def headerIds (lines : List Line) : List Line := dictKeys (specRecords lines)

/-- From the spec's words: no sequence line precedes the first header
(blank lines may, they are skipped). -/
def noSeqBeforeHeader : List Line → Bool
  | [] => true
  | rawLine :: rest =>
    let l := pyStrip rawLine
    if l = [] then noSeqBeforeHeader rest
    else startsWithGt l

/-- The accumulated sequence of the last record of the input whose header
identifier is `k`: the gathered block after the last header line whose
stripped text after the marker equals `k`, or `none` when no header line
carries `k`. -/
def findLastBlock (k : Line) : List Line → Option Line
  | [] => none
  | rawLine :: rest =>
    let l := pyStrip rawLine
    match findLastBlock k rest with
    | some v => some v
    | none =>
        if startsWithGt l = true ∧ l.drop 1 = k then some (gatherSeq rest)
        else none

/-! The `calculate_gc_content` functions.  Python's float division is
modelled exactly, with rational numbers. -/

/-- `calculate_gc_content` as defined in the basics notebook (cell
"A function to calculate GC content"): count `'G'` and `'C'`, return 0.0
on the empty sequence, else the percentage. -/
def calculate_gc_content (dna_sequence : Line) : ℚ :=
  let g_count : ℕ := dna_sequence.count 'G'
  let c_count : ℕ := dna_sequence.count 'C'
  let total_bases : ℕ := dna_sequence.length
  if total_bases = 0 then 0
  else ((g_count + c_count : ℚ) / (total_bases : ℚ)) * 100

/-- `calculate_gc_content` as redefined in the FASTA-parsing notebook:
identical except that it first uppercases its input
(`dna_sequence = dna_sequence.upper()`). -/
def calculate_gc_content_fasta (dna_sequence0 : Line) : ℚ :=
  let dna_sequence := pyUpper dna_sequence0
  let g_count : ℕ := dna_sequence.count 'G'
  let c_count : ℕ := dna_sequence.count 'C'
  let total_bases : ℕ := dna_sequence.length
  if total_bases = 0 then 0
  else ((g_count + c_count : ℚ) / (total_bases : ℚ)) * 100

/-- Division made explicitly fallible: `none` models Python's
`ZeroDivisionError`. -/
def safeDivQ (a b : ℚ) : Option ℚ := if b = 0 then none else some (a / b)

/-- The GC computation with its division routed through `safeDivQ`, to
state that the `total_bases == 0` guard makes the divide-by-zero branch
unreachable. -/
def calculate_gc_content_checked (dna_sequence : Line) : Option ℚ :=
  let g_count : ℕ := dna_sequence.count 'G'
  let c_count : ℕ := dna_sequence.count 'C'
  let total_bases : ℕ := dna_sequence.length
  if total_bases = 0 then some 0
  else (safeDivQ (g_count + c_count : ℚ) (total_bases : ℚ)).map (fun q => q * 100)

/-! The try/except demonstration cell of the basics notebook. -/

/-- The exceptions the demonstration cell can raise: the two anticipated
ones, and a stand-in for any other exception (carrying its `str(e)` text). -/
inductive PyError where
  | zeroDivisionError : PyError
  | fileNotFoundError : PyError
  | otherError : String → PyError
deriving Repr, DecidableEq

/-- `str(e)` for an exception, as interpolated by the catch-all handlers. -/
def describeError : PyError → String
  | PyError.zeroDivisionError => "division by zero"
  | PyError.fileNotFoundError => "file not found"
  | PyError.otherError msg => msg

/-- Python division `numerator / denominator`: raises `ZeroDivisionError`
on a zero denominator, otherwise yields the (true, rational) quotient. -/
def pyDivide (a b : ℚ) : Except PyError ℚ :=
  if b = 0 then Except.error PyError.zeroDivisionError else Except.ok (a / b)

/-- `open(name).read()` against a modelled directory of files: raises
`FileNotFoundError` when the name is absent. -/
def pyOpenRead (files : List (String × String)) (name : String) : Except PyError String :=
  match files.lookup name with
  | some content => Except.ok content
  | none => Except.error PyError.fileNotFoundError

/-- The printed output of the division try/except block, applied to the
outcome of the `try` body: the `except ZeroDivisionError` handler is tried
first, then the `except Exception` catch-all; in every case execution
reaches the print after the block ("Program continued gracefully!"). -/
def divideCellOutput (res : Except PyError ℚ) : List String :=
  (match res with
   | Except.ok r => ["Result: " ++ toString r]
   | Except.error PyError.zeroDivisionError =>
       ["Oops! You tried to divide by zero. That is not allowed in math."]
   | Except.error e => ["An unexpected error occurred: " ++ describeError e])
  ++ ["Program continued gracefully!"]

/-- The division demonstration: `numerator = 10`, `denominator = 0` in the
source; we keep them as parameters. -/
def divideCell (numerator denominator : ℚ) : List String :=
  divideCellOutput (pyDivide numerator denominator)

/-- The printed output of the file-opening try/except block, applied to
the outcome of the `try` body: `except FileNotFoundError` first, then the
catch-all. -/
def fileCellOutput (file_name : String) (res : Except PyError String) : List String :=
  match res with
  | Except.ok content => ["File content: " ++ content]
  | Except.error PyError.fileNotFoundError =>
      ["Error: The file " ++ file_name ++ " was not found. Please check the name and path."]
  | Except.error e =>
      ["An unexpected error occurred while opening the file: " ++ describeError e]

/-- The file demonstration cell, over a modelled directory. -/
def fileCell (files : List (String × String)) (file_name : String) : List String :=
  fileCellOutput file_name (pyOpenRead files file_name)

end BioWorkshop

namespace BioWorkshop

/-! Helper lemmas: characters. -/

theorem charToNat_ofNat_valid (n : Nat) (h : Nat.isValidChar n) :
    (Char.ofNat n).toNat = n := by
  simp [Char.ofNat, h, Char.toNat, Char.ofNatAux, UInt32.toNat, BitVec.toNat_ofNatLt]

theorem pyToUpper_pyToUpper (c : Char) : pyToUpper (pyToUpper c) = pyToUpper c := by
  by_cases h : 97 ≤ c.toNat ∧ c.toNat ≤ 122
  · have hv : Nat.isValidChar (c.toNat - 32) := Or.inl (by omega)
    have ht := charToNat_ofNat_valid _ hv
    simp only [pyToUpper, if_pos h]
    rw [if_neg]
    intro hc
    rw [ht] at hc
    omega
  · simp only [pyToUpper, if_neg h]

theorem pyToUpper_pyToLower (c : Char) : pyToUpper (pyToLower c) = pyToUpper c := by
  by_cases h : 65 ≤ c.toNat ∧ c.toNat ≤ 90
  · have hv : Nat.isValidChar (c.toNat + 32) := Or.inl (by omega)
    have ht := charToNat_ofNat_valid _ hv
    simp only [pyToLower, pyToUpper, if_pos h]
    rw [if_pos (by rw [ht]; omega), if_neg (by omega), ht]
    have h32 : c.toNat + 32 - 32 = c.toNat := by omega
    rw [h32, Char.ofNat_toNat]
  · simp only [pyToLower, if_neg h]

theorem pyUpper_pyUpper (s : Line) : pyUpper (pyUpper s) = pyUpper s := by
  simp only [pyUpper, List.map_map]
  exact List.map_congr_left (fun c _ => pyToUpper_pyToUpper c)

theorem pyUpper_map_pyToLower (s : Line) : pyUpper (s.map pyToLower) = pyUpper s := by
  simp only [pyUpper, List.map_map]
  exact List.map_congr_left (fun c _ => pyToUpper_pyToLower c)

/-! Helper lemmas: the dictionary model. -/

theorem dictKeys_append (d e : Dict) : dictKeys (d ++ e) = dictKeys d ++ dictKeys e := by
  simp [dictKeys]

theorem dictKeys_dictAddTo (d : Dict) (k v : Line) :
    dictKeys (dictAddTo d k v) = dictKeys d := by
  induction d with
  | nil => rfl
  | cons p rest ih =>
      simp only [dictAddTo, dictKeys, List.map_cons] at ih ⊢
      by_cases hp : p.1 = k <;> simp [hp, ih]

theorem dictAddTo_nil_val (d : Dict) (k : Line) : dictAddTo d k [] = d := by
  have hpt : ∀ q : Line × Line, (if q.1 = k then (q.1, q.2 ++ ([] : Line)) else q) = q := by
    rintro ⟨a, b⟩
    by_cases ha : a = k <;> simp [ha]
  rw [dictAddTo, List.map_congr_left (fun q _ => hpt q)]
  simp

theorem dictAddTo_append (d e : Dict) (k v : Line) :
    dictAddTo (d ++ e) k v = dictAddTo d k v ++ dictAddTo e k v := by
  simp [dictAddTo]

theorem dictAddTo_not_mem (d : Dict) (k v : Line) (h : k ∉ dictKeys d) :
    dictAddTo d k v = d := by
  induction d with
  | nil => rfl
  | cons p rest ih =>
      simp only [dictKeys, List.map_cons, List.mem_cons, not_or] at h
      simp only [dictAddTo, List.map_cons] at ih ⊢
      rw [if_neg (fun hp => h.1 hp.symm)]
      rw [ih (by simpa [dictKeys] using h.2)]

theorem dictAddTo_dictAddTo (d : Dict) (k u v : Line) :
    dictAddTo (dictAddTo d k u) k v = dictAddTo d k (u ++ v) := by
  induction d with
  | nil => rfl
  | cons p rest ih =>
      simp only [dictAddTo, List.map_cons] at ih ⊢
      by_cases hp : p.1 = k <;> simp [hp, ih, List.append_assoc]

theorem dictSet_not_mem (d : Dict) (k v : Line) (h : k ∉ dictKeys d) :
    dictSet d k v = d ++ [(k, v)] := by
  simp [dictSet, h]

theorem dictKeys_mapSet (d : Dict) (h v : Line) :
    dictKeys (d.map (fun p => if p.1 = h then (p.1, v) else p)) = dictKeys d := by
  induction d with
  | nil => rfl
  | cons p rest ih =>
      simp only [dictKeys, List.map_cons] at ih ⊢
      by_cases hp : p.1 = h <;> simp [hp, ih]

theorem dictKeys_dictSet (d : Dict) (k v : Line) :
    dictKeys (dictSet d k v) =
      if k ∈ dictKeys d then dictKeys d else dictKeys d ++ [k] := by
  by_cases hm : k ∈ dictKeys d
  · have hset : dictSet d k v = d.map (fun p => if p.1 = k then (p.1, v) else p) := by
      rw [dictSet, if_pos hm]
    rw [hset, dictKeys_mapSet, if_pos hm]
  · rw [dictSet_not_mem d k v hm, dictKeys_append, if_neg hm]
    simp [dictKeys]

theorem nodup_dictKeys_dictSet (d : Dict) (k v : Line)
    (h : (dictKeys d).Nodup) : (dictKeys (dictSet d k v)).Nodup := by
  rw [dictKeys_dictSet]
  by_cases hm : k ∈ dictKeys d
  · simpa [hm] using h
  · simp only [hm, if_false]
    simpa [List.nodup_append] using ⟨h, hm⟩

theorem dlookup_append (d e : Dict) (k : Line) :
    dlookup (d ++ e) k =
      match dlookup d k with
      | some v => some v
      | none => dlookup e k := by
  induction d with
  | nil => simp [dlookup]
  | cons p rest ih =>
      simp only [List.cons_append, dlookup]
      by_cases hp : p.1 = k <;> simp [hp, ih]

theorem dlookup_isSome_iff_mem (d : Dict) (k : Line) :
    (dlookup d k).isSome = true ↔ k ∈ dictKeys d := by
  induction d with
  | nil => simp [dlookup, dictKeys]
  | cons p rest ih =>
      simp only [dlookup, dictKeys, List.map_cons, List.mem_cons]
      by_cases hp : p.1 = k
      · simp [hp]
      · simp only [if_neg hp]
        rw [ih]
        simp only [dictKeys]
        constructor
        · exact Or.inr
        · rintro (h | h)
          · exact absurd h.symm hp
          · exact h

theorem dlookup_eq_none_of_not_mem (d : Dict) (k : Line) (h : k ∉ dictKeys d) :
    dlookup d k = none := by
  by_contra hne
  exact h ((dlookup_isSome_iff_mem d k).1 (Option.isSome_iff_ne_none.2 hne))

theorem dlookup_mapSet (d : Dict) (h v k : Line) :
    dlookup (d.map (fun p => if p.1 = h then (p.1, v) else p)) k =
      if k = h then (dlookup d h).map (fun _ => v) else dlookup d k := by
  induction d with
  | nil => simp [dlookup]
  | cons p rest ih =>
      by_cases hp : p.1 = h
      · by_cases hk : p.1 = k
        · have hkh : k = h := hk.symm.trans hp
          simp [dlookup, hp, hk, hkh]
        · have hkh : k ≠ h := fun hh => hk (hp.trans hh.symm)
          simp [dlookup, hp, hk, hkh, Ne.symm hkh, ih]
      · by_cases hk : p.1 = k
        · have hkh : k ≠ h := fun hh => hp (hk.trans hh)
          simp [dlookup, hp, hk, hkh]
        · simp only [List.map_cons, if_neg hp, dlookup, if_neg hk]
          rw [ih]

theorem dlookup_dictSet (d : Dict) (h v k : Line) :
    dlookup (dictSet d h v) k = if k = h then some v else dlookup d k := by
  by_cases hm : h ∈ dictKeys d
  · rw [dictSet, if_pos hm, dlookup_mapSet]
    by_cases hkh : k = h
    · have := (dlookup_isSome_iff_mem d h).2 hm
      rcases Option.isSome_iff_exists.1 this with ⟨w, hw⟩
      simp [hkh, hw]
    · simp [hkh]
  · rw [dictSet_not_mem d h v hm, dlookup_append]
    by_cases hkh : k = h
    · subst hkh
      rw [dlookup_eq_none_of_not_mem d k hm]
      simp [dlookup]
    · cases hd : dlookup d k with
      | some w => simp [hkh]
      | none =>
          simp only [hkh, if_false, dlookup]
          rw [if_neg (fun hh => hkh hh.symm)]

theorem dlookup_dictAddTo (d : Dict) (c u k : Line) :
    dlookup (dictAddTo d c u) k =
      if k = c then (dlookup d k).map (fun w => w ++ u) else dlookup d k := by
  induction d with
  | nil => simp [dictAddTo, dlookup]
  | cons p rest ih =>
      by_cases hp : p.1 = c
      · by_cases hk : p.1 = k
        · have hkc : k = c := hk.symm.trans hp
          simp [dictAddTo, dlookup, hp, hk, hkc]
        · have hkc : k ≠ c := fun hh => hk (hp.trans hh.symm)
          simpa [dictAddTo, dlookup, hp, hk, hkc, Ne.symm hkc] using ih
      · by_cases hk : p.1 = k
        · have hkc : k ≠ c := fun hh => hp (hk.trans hh)
          simp [dictAddTo, dlookup, hp, hk, hkc]
        · simpa [dictAddTo, dlookup, hp, hk] using ih

/-! Helper lemmas: the parsing loop against the spec-side description. -/

theorem parse_go_some (lines : List Line) :
    ∀ (d : Dict) (cid : Line) (w : List Line),
      (∀ k ∈ headerIds lines, k ∉ dictKeys d) →
      (headerIds lines).Nodup →
      (lines.foldl parseStep ⟨d, some cid, w⟩).sequences_dict
          = dictAddTo d cid (gatherSeq lines) ++ specRecords lines
      ∧ (lines.foldl parseStep ⟨d, some cid, w⟩).warnings = w := by
  induction lines with
  | nil =>
      intro d cid w _ _
      simp [gatherSeq, specRecords, dictAddTo_nil_val]
  | cons rawLine rest ih =>
      intro d cid w hdisj hnd
      cases hl : pyStrip rawLine with
      | nil =>
          have hstep : parseStep ⟨d, some cid, w⟩ rawLine = ⟨d, some cid, w⟩ := by
            simp [parseStep, hl]
          have hgs : gatherSeq (rawLine :: rest) = gatherSeq rest := by
            simp [gatherSeq, hl, startsWithGt]
          have hsp : specRecords (rawLine :: rest) = specRecords rest := by
            simp [specRecords, hl, startsWithGt]
          have hh : headerIds (rawLine :: rest) = headerIds rest := by
            rw [headerIds, hsp, headerIds]
          rw [List.foldl_cons, hstep, hgs, hsp]
          exact ih d cid w (hh ▸ hdisj) (hh ▸ hnd)
      | cons c cl =>
          by_cases hgt : c = '>'
          · have hsw : startsWithGt (c :: cl) = true := by simp [startsWithGt, hgt]
            have hgs : gatherSeq (rawLine :: rest) = [] := by
              simp [gatherSeq, hl, hsw]
            have hsp : specRecords (rawLine :: rest)
                = (cl, gatherSeq rest) :: specRecords rest := by
              simp [specRecords, hl, hsw]
            have hh : headerIds (rawLine :: rest) = cl :: headerIds rest := by
              rw [headerIds, hsp]
              rfl
            have hclkeys : cl ∉ dictKeys d := by
              apply hdisj
              rw [hh]
              exact List.mem_cons_self cl _
            have hclrest : cl ∉ headerIds rest := by
              have := hh ▸ hnd
              exact (List.nodup_cons.1 this).1
            have hndrest : (headerIds rest).Nodup := by
              have := hh ▸ hnd
              exact (List.nodup_cons.1 this).2
            have hstep : parseStep ⟨d, some cid, w⟩ rawLine
                = ⟨dictSet d cl [], some cl, w⟩ := by
              simp [parseStep, hl, hsw]
            have hset : dictSet d cl [] = d ++ [(cl, [])] :=
              dictSet_not_mem d cl [] hclkeys
            have hdisj' : ∀ k ∈ headerIds rest, k ∉ dictKeys (d ++ [(cl, ([] : Line))]) := by
              intro k hk
              rw [dictKeys_append]
              intro hmem
              rcases List.mem_append.1 hmem with hmd | hmc
              · exact hdisj k (by rw [hh]; exact List.mem_cons_of_mem _ hk) hmd
              · simp [dictKeys] at hmc
                exact hclrest (hmc ▸ hk)
            have hrec := ih (d ++ [(cl, [])]) cl w hdisj' hndrest
            rw [List.foldl_cons, hstep, hset]
            refine ⟨?_, hrec.2⟩
            rw [hrec.1, dictAddTo_append, dictAddTo_not_mem d cl _ hclkeys]
            rw [hgs, hsp, dictAddTo_nil_val]
            simp [dictAddTo]
          · have hsw : startsWithGt (c :: cl) = false := by
              simp [startsWithGt, hgt]
            have hgs : gatherSeq (rawLine :: rest)
                = pyUpper (c :: cl) ++ gatherSeq rest := by
              simp [gatherSeq, hl, hsw]
            have hsp : specRecords (rawLine :: rest) = specRecords rest := by
              simp [specRecords, hl, hsw]
            have hh : headerIds (rawLine :: rest) = headerIds rest := by
              rw [headerIds, hsp, headerIds]
            have hstep : parseStep ⟨d, some cid, w⟩ rawLine
                = ⟨dictAddTo d cid (pyUpper (c :: cl)), some cid, w⟩ := by
              simp [parseStep, hl, hsw]
            have hdisj' : ∀ k ∈ headerIds rest,
                k ∉ dictKeys (dictAddTo d cid (pyUpper (c :: cl))) := by
              intro k hk
              rw [dictKeys_dictAddTo]
              exact hdisj k (hh ▸ hk)
            have hrec := ih (dictAddTo d cid (pyUpper (c :: cl))) cid w hdisj' (hh ▸ hnd)
            rw [List.foldl_cons, hstep, hgs, hsp]
            refine ⟨?_, hrec.2⟩
            rw [hrec.1, dictAddTo_dictAddTo]

theorem parse_go_none (lines : List Line) :
    ∀ (d : Dict) (w : List Line),
      (∀ k ∈ headerIds lines, k ∉ dictKeys d) →
      (headerIds lines).Nodup →
      noSeqBeforeHeader lines = true →
      (lines.foldl parseStep ⟨d, none, w⟩).sequences_dict = d ++ specRecords lines
      ∧ (lines.foldl parseStep ⟨d, none, w⟩).warnings = w := by
  induction lines with
  | nil =>
      intro d w _ _ _
      simp [specRecords]
  | cons rawLine rest ih =>
      intro d w hdisj hnd hns
      cases hl : pyStrip rawLine with
      | nil =>
          have hstep : parseStep ⟨d, none, w⟩ rawLine = ⟨d, none, w⟩ := by
            simp [parseStep, hl]
          have hsp : specRecords (rawLine :: rest) = specRecords rest := by
            simp [specRecords, hl, startsWithGt]
          have hh : headerIds (rawLine :: rest) = headerIds rest := by
            rw [headerIds, hsp, headerIds]
          have hns' : noSeqBeforeHeader rest = true := by
            rw [noSeqBeforeHeader, hl] at hns
            simpa using hns
          rw [List.foldl_cons, hstep, hsp]
          exact ih d w (hh ▸ hdisj) (hh ▸ hnd) hns'
      | cons c cl =>
          by_cases hgt : c = '>'
          · have hsw : startsWithGt (c :: cl) = true := by simp [startsWithGt, hgt]
            have hsp : specRecords (rawLine :: rest)
                = (cl, gatherSeq rest) :: specRecords rest := by
              simp [specRecords, hl, hsw]
            have hh : headerIds (rawLine :: rest) = cl :: headerIds rest := by
              rw [headerIds, hsp]
              rfl
            have hclkeys : cl ∉ dictKeys d := by
              apply hdisj
              rw [hh]
              exact List.mem_cons_self cl _
            have hclrest : cl ∉ headerIds rest := by
              have := hh ▸ hnd
              exact (List.nodup_cons.1 this).1
            have hndrest : (headerIds rest).Nodup := by
              have := hh ▸ hnd
              exact (List.nodup_cons.1 this).2
            have hstep : parseStep ⟨d, none, w⟩ rawLine
                = ⟨dictSet d cl [], some cl, w⟩ := by
              simp [parseStep, hl, hsw]
            have hset : dictSet d cl [] = d ++ [(cl, [])] :=
              dictSet_not_mem d cl [] hclkeys
            have hdisj' : ∀ k ∈ headerIds rest, k ∉ dictKeys (d ++ [(cl, ([] : Line))]) := by
              intro k hk
              rw [dictKeys_append]
              intro hmem
              rcases List.mem_append.1 hmem with hmd | hmc
              · exact hdisj k (by rw [hh]; exact List.mem_cons_of_mem _ hk) hmd
              · simp [dictKeys] at hmc
                exact hclrest (hmc ▸ hk)
            have hrec := parse_go_some rest (d ++ [(cl, [])]) cl w hdisj' hndrest
            rw [List.foldl_cons, hstep, hset]
            refine ⟨?_, hrec.2⟩
            rw [hrec.1, dictAddTo_append, dictAddTo_not_mem d cl _ hclkeys]
            rw [hsp]
            simp [dictAddTo]
          · exfalso
            rw [noSeqBeforeHeader, hl] at hns
            simp [startsWithGt, hgt] at hns

theorem dlookup_foldl_parseStep (lines : List Line) :
    ∀ (st : ParseState) (k : Line),
      dlookup (lines.foldl parseStep st).sequences_dict k =
        match findLastBlock k lines with
        | some v => some v
        | none =>
            match dlookup st.sequences_dict k with
            | none => none
            | some v =>
                if st.current_sequence_id = some k then some (v ++ gatherSeq lines)
                else some v := by
  induction lines with
  | nil =>
      intro st k
      simp only [List.foldl_nil, findLastBlock, gatherSeq]
      cases hd : dlookup st.sequences_dict k with
      | none => rfl
      | some v => by_cases hc : st.current_sequence_id = some k <;> simp [hc]
  | cons rawLine rest ih =>
      intro st k
      cases hl : pyStrip rawLine with
      | nil =>
          have hstep : parseStep st rawLine = st := by
            simp [parseStep, hl]
          have hfb : findLastBlock k (rawLine :: rest) = findLastBlock k rest := by
            rw [findLastBlock, hl]
            cases hr : findLastBlock k rest <;> simp [startsWithGt]
          have hgs : gatherSeq (rawLine :: rest) = gatherSeq rest := by
            simp [gatherSeq, hl, startsWithGt]
          rw [List.foldl_cons, hstep, hfb, hgs, ih st k]
      | cons c cl =>
          by_cases hgt : c = '>'
          · have hsw : startsWithGt (c :: cl) = true := by simp [startsWithGt, hgt]
            have hstep : parseStep st rawLine
                = ⟨dictSet st.sequences_dict cl [], some cl, st.warnings⟩ := by
              simp [parseStep, hl, hsw]
            have hfb : findLastBlock k (rawLine :: rest)
                = match findLastBlock k rest with
                  | some v => some v
                  | none => if cl = k then some (gatherSeq rest) else none := by
              rw [findLastBlock, hl]
              cases hr : findLastBlock k rest <;> simp [hsw]
            have hgs : gatherSeq (rawLine :: rest) = [] := by
              simp [gatherSeq, hl, hsw]
            rw [List.foldl_cons, hstep, ih _ k, hfb, hgs]
            simp only [dlookup_dictSet]
            cases hr : findLastBlock k rest with
            | some v => rfl
            | none =>
                by_cases hkc : k = cl
                · subst hkc
                  simp
                · have hclk : ¬cl = k := fun hh => hkc hh.symm
                  simp only [if_neg hkc, if_neg hclk]
                  cases hd : dlookup st.sequences_dict k with
                  | none => rfl
                  | some v =>
                      have hne : ¬(some cl = some k) := by
                        intro hh
                        exact hkc (Option.some.inj hh).symm
                      simp only [hne, if_false]
                      by_cases hc : st.current_sequence_id = some k <;> simp [hc]
          · have hsw : startsWithGt (c :: cl) = false := by simp [startsWithGt, hgt]
            have hfb : findLastBlock k (rawLine :: rest) = findLastBlock k rest := by
              rw [findLastBlock, hl]
              cases hr : findLastBlock k rest <;> simp [hsw]
            have hgs : gatherSeq (rawLine :: rest)
                = pyUpper (c :: cl) ++ gatherSeq rest := by
              simp [gatherSeq, hl, hsw]
            cases hc : st.current_sequence_id with
            | none =>
                have hstep : parseStep st rawLine
                    = { st with warnings := st.warnings ++ [c :: cl] } := by
                  simp [parseStep, hl, hsw, hc]
                rw [List.foldl_cons, hstep, ih _ k, hfb, hgs]
                cases hr : findLastBlock k rest with
                | some v => rfl
                | none =>
                    cases hd : dlookup st.sequences_dict k with
                    | none => rfl
                    | some v => simp [hc]
            | some cid =>
                have hstep : parseStep st rawLine
                    = ⟨dictAddTo st.sequences_dict cid (pyUpper (c :: cl)),
                       some cid, st.warnings⟩ := by
                  simp [parseStep, hl, hsw, hc]
                rw [List.foldl_cons, hstep, ih _ k, hfb, hgs]
                cases hr : findLastBlock k rest with
                | some v => rfl
                | none =>
                    simp only [dlookup_dictAddTo]
                    by_cases hkc : k = cid
                    · subst hkc
                      cases hd : dlookup st.sequences_dict k with
                      | none => simp
                      | some v => simp [hc, List.append_assoc]
                    · have hne : ¬(some cid = some k) := by
                        intro hh
                        exact hkc (Option.some.inj hh).symm
                      cases hd : dlookup st.sequences_dict k with
                      | none => simp [hkc]
                      | some v => simp [hkc, hc, hne]

theorem dlookup_parseFasta (lines : List Line) (k : Line) :
    dlookup (parseFasta lines).sequences_dict k = findLastBlock k lines := by
  rw [parseFasta, dlookup_foldl_parseStep lines initState k]
  cases hfb : findLastBlock k lines <;> simp [initState, dlookup]

theorem nodup_keys_parseStep (st : ParseState) (raw : Line)
    (h : (dictKeys st.sequences_dict).Nodup) :
    (dictKeys (parseStep st raw).sequences_dict).Nodup := by
  cases hl : pyStrip raw with
  | nil => simpa [parseStep, hl]
  | cons c cl =>
      by_cases hgt : c = '>'
      · have hsw : startsWithGt (c :: cl) = true := by simp [startsWithGt, hgt]
        simpa [parseStep, hl, hsw] using nodup_dictKeys_dictSet st.sequences_dict cl [] h
      · have hsw : startsWithGt (c :: cl) = false := by simp [startsWithGt, hgt]
        cases hc : st.current_sequence_id with
        | none => simpa [parseStep, hl, hsw, hc]
        | some cid => simpa [parseStep, hl, hsw, hc, dictKeys_dictAddTo]

theorem nodup_keys_foldl (lines : List Line) :
    ∀ st : ParseState, (dictKeys st.sequences_dict).Nodup →
      (dictKeys (lines.foldl parseStep st).sequences_dict).Nodup := by
  induction lines with
  | nil => intro st h; simpa
  | cons raw rest ih =>
      intro st h
      rw [List.foldl_cons]
      exact ih _ (nodup_keys_parseStep st raw h)

theorem keys_foldl_sources (lines : List Line) :
    ∀ (st : ParseState) (k : Line),
      k ∈ dictKeys (lines.foldl parseStep st).sequences_dict →
      k ∈ dictKeys st.sequences_dict
      ∨ ∃ raw, raw ∈ lines ∧ startsWithGt (pyStrip raw) = true
          ∧ k = (pyStrip raw).drop 1 := by
  induction lines with
  | nil =>
      intro st k h
      exact Or.inl (by simpa using h)
  | cons rawLine rest ih =>
      intro st k h
      rw [List.foldl_cons] at h
      rcases ih (parseStep st rawLine) k h with hmem | ⟨raw, hraw, hsw, hk⟩
      · cases hl : pyStrip rawLine with
        | nil =>
            rw [show parseStep st rawLine = st from by simp [parseStep, hl]] at hmem
            exact Or.inl hmem
        | cons c cl =>
            by_cases hgt : c = '>'
            · have hsw : startsWithGt (c :: cl) = true := by simp [startsWithGt, hgt]
              rw [show parseStep st rawLine
                    = ⟨dictSet st.sequences_dict cl [], some cl, st.warnings⟩ from by
                    simp [parseStep, hl, hsw]] at hmem
              simp only [dictKeys_dictSet] at hmem
              by_cases hm : cl ∈ dictKeys st.sequences_dict
              · rw [if_pos hm] at hmem
                exact Or.inl hmem
              · rw [if_neg hm] at hmem
                rcases List.mem_append.1 hmem with hmd | hmc
                · exact Or.inl hmd
                · refine Or.inr ⟨rawLine, List.mem_cons_self _ _, ?_, ?_⟩
                  · rw [hl]; exact hsw
                  · rw [hl]
                    simpa using hmc
            · have hsw : startsWithGt (c :: cl) = false := by simp [startsWithGt, hgt]
              cases hc : st.current_sequence_id with
              | none =>
                  rw [show parseStep st rawLine
                        = { st with warnings := st.warnings ++ [c :: cl] } from by
                        simp [parseStep, hl, hsw, hc]] at hmem
                  exact Or.inl hmem
              | some cid =>
                  rw [show parseStep st rawLine
                        = ⟨dictAddTo st.sequences_dict cid (pyUpper (c :: cl)),
                           some cid, st.warnings⟩ from by
                        simp [parseStep, hl, hsw, hc]] at hmem
                  rw [dictKeys_dictAddTo] at hmem
                  exact Or.inl hmem
      · exact Or.inr ⟨raw, List.mem_cons_of_mem _ hraw, hsw, hk⟩

/-! A small-step view of the `for line in fasta_file` loop, used to state
that the scan is single-pass: `pending` is the part of the file the loop
has not reached, `visited` records every line the loop body has examined,
in the order it examined them. -/

structure LoopMachine where
  pending : List Line
  visited : List Line
  state : ParseState
deriving Repr, DecidableEq

/-- The loop about to run over the whole file. -/
def loopInit (lines : List Line) : LoopMachine := ⟨lines, [], initState⟩

/-- One iteration of the `for` loop: take the next line (if any), run the
body on it, record it as examined. -/
def loopStep (m : LoopMachine) : LoopMachine :=
  match m.pending with
  | [] => m
  | line :: rest => ⟨rest, m.visited ++ [line], parseStep m.state line⟩

/-- `n` iterations of the loop. -/
def loopRun : Nat → LoopMachine → LoopMachine
  | 0, m => m
  | n + 1, m => loopRun n (loopStep m)

theorem loopRun_full (l : List Line) :
    ∀ (v : List Line) (st : ParseState),
      loopRun l.length ⟨l, v, st⟩ = ⟨[], v ++ l, l.foldl parseStep st⟩ := by
  induction l with
  | nil => intro v st; simp [loopRun]
  | cons a rest ih =>
      intro v st
      have h1 : loopStep ⟨a :: rest, v, st⟩ = ⟨rest, v ++ [a], parseStep st a⟩ := rfl
      calc loopRun (a :: rest).length ⟨a :: rest, v, st⟩
          = loopRun rest.length ⟨rest, v ++ [a], parseStep st a⟩ := by
            rw [List.length_cons, loopRun, h1]
        _ = ⟨[], (v ++ [a]) ++ rest, rest.foldl parseStep (parseStep st a)⟩ := ih _ _
        _ = ⟨[], v ++ a :: rest, (a :: rest).foldl parseStep st⟩ := by
            rw [List.append_assoc, List.singleton_append, List.foldl_cons]

theorem loopStep_done (m : LoopMachine) (h : m.pending = []) : loopStep m = m := by
  rw [loopStep, h]

theorem loopRun_done (n : Nat) (m : LoopMachine) (h : m.pending = []) :
    loopRun n m = m := by
  induction n with
  | zero => rfl
  | succ n ih => rw [loopRun, loopStep_done m h, ih]

theorem loopRun_add (a b : Nat) : ∀ m : LoopMachine,
    loopRun (a + b) m = loopRun b (loopRun a m) := by
  induction a with
  | zero => intro m; rw [Nat.zero_add]; rfl
  | succ a ih =>
      intro m
      rw [Nat.succ_add]
      show loopRun (a + b) (loopStep m) = loopRun b (loopRun (a + 1) m)
      rw [ih (loopStep m)]
      rfl

/-- The number of occurrences of `k` in a list of identifiers. -/
def countKey : List Line → Line → Nat
  | [], _ => 0
  | a :: rest, k => (if a = k then 1 else 0) + countKey rest k

theorem countKey_eq_zero_of_not_mem (l : List Line) (k : Line) (h : k ∉ l) :
    countKey l k = 0 := by
  induction l with
  | nil => rfl
  | cons a rest ih =>
      simp only [List.mem_cons, not_or] at h
      rw [countKey, if_neg (fun ha => h.1 ha.symm), ih h.2]

theorem mem_of_countKey_pos (l : List Line) (k : Line) (h : 0 < countKey l k) :
    k ∈ l := by
  by_contra hmem
  rw [countKey_eq_zero_of_not_mem l k hmem] at h
  exact Nat.lt_irrefl 0 h

theorem countKey_eq_one_of_nodup_mem (l : List Line) (k : Line)
    (hd : l.Nodup) (h : k ∈ l) : countKey l k = 1 := by
  induction l with
  | nil => exact absurd h (List.not_mem_nil k)
  | cons a rest ih =>
      rcases List.nodup_cons.1 hd with ⟨ha, hrest⟩
      rcases List.mem_cons.1 h with hk | hk
      · rw [countKey, if_pos hk.symm,
            countKey_eq_zero_of_not_mem rest k (hk ▸ ha)]
      · have hak : ¬a = k := fun he => ha (he ▸ hk)
        rw [countKey, if_neg hak, ih hrest hk]

theorem specRecords_eq_nil (lines : List Line)
    (h : ∀ l ∈ lines, startsWithGt (pyStrip l) = false) : specRecords lines = [] := by
  induction lines with
  | nil => rfl
  | cons raw rest ih =>
      rw [specRecords]
      simp only [h raw (List.mem_cons_self _ _), if_false]
      exact ih (fun l hl => h l (List.mem_cons_of_mem _ hl))

theorem findLastBlock_isSome_of_mem (lines : List Line) (k : Line)
    (h : k ∈ headerIds lines) : (findLastBlock k lines).isSome = true := by
  induction lines with
  | nil => exact absurd h (List.not_mem_nil k)
  | cons raw rest ih =>
      cases hl : pyStrip raw with
      | nil =>
          have hsp : specRecords (raw :: rest) = specRecords rest := by
            simp [specRecords, hl, startsWithGt]
          have hh : headerIds (raw :: rest) = headerIds rest := by
            rw [headerIds, hsp, headerIds]
          rw [findLastBlock, hl]
          cases hr : findLastBlock k rest with
          | some v => simp
          | none =>
              have := ih (hh ▸ h)
              rw [hr] at this
              simp at this
      | cons c cl =>
          by_cases hgt : c = '>'
          · have hsw : startsWithGt (c :: cl) = true := by simp [startsWithGt, hgt]
            have hsp : specRecords (raw :: rest)
                = (cl, gatherSeq rest) :: specRecords rest := by
              simp [specRecords, hl, hsw]
            have hh : headerIds (raw :: rest) = cl :: headerIds rest := by
              rw [headerIds, hsp]
              rfl
            rw [findLastBlock, hl]
            cases hr : findLastBlock k rest with
            | some v => simp
            | none =>
                rcases List.mem_cons.1 (hh ▸ h) with hk | hk
                · subst hk
                  simp [hsw]
                · have := ih hk
                  rw [hr] at this
                  simp at this
          · have hsw : startsWithGt (c :: cl) = false := by simp [startsWithGt, hgt]
            have hsp : specRecords (raw :: rest) = specRecords rest := by
              simp [specRecords, hl, hsw]
            have hh : headerIds (raw :: rest) = headerIds rest := by
              rw [headerIds, hsp, headerIds]
            rw [findLastBlock, hl]
            cases hr : findLastBlock k rest with
            | some v => simp
            | none =>
                have := ih (hh ▸ h)
                rw [hr] at this
                simp at this

/-! The claims. -/

/-- Claim C1: for every FASTA input whose headers are distinct and with no
sequence line before the first header, the parsing loop produces exactly
the spec-side mapping: its keys are the header texts after the marker of
the stripped header lines, in file order, and each value is the
concatenation, in file order, of the uppercased, stripped, non-blank
sequence lines of that header's block. -/
theorem fasta_parse_matches_spec (lines : List Line)
    (hdistinct : (headerIds lines).Nodup)
    (hstart : noSeqBeforeHeader lines = true) :
    (parseFasta lines).sequences_dict = specRecords lines
    ∧ dictKeys (parseFasta lines).sequences_dict = headerIds lines := by
  have h := parse_go_none lines [] []
    (by intro k hk; simp [dictKeys]) hdistinct hstart
  have hd : (parseFasta lines).sequences_dict = specRecords lines := by
    rw [parseFasta]
    rw [show initState = (⟨[], none, []⟩ : ParseState) from rfl]
    rw [h.1]
    rfl
  exact ⟨hd, by rw [hd, headerIds]⟩

/-- Witness for C1 on a concrete two-record FASTA input. -/
theorem fasta_parse_matches_spec_witness :
    ((headerIds [['>', 'a'], ['g', 'c'], ['>', 'b'], ['t']]).Nodup
      ∧ noSeqBeforeHeader [['>', 'a'], ['g', 'c'], ['>', 'b'], ['t']] = true)
    ∧ ((parseFasta [['>', 'a'], ['g', 'c'], ['>', 'b'], ['t']]).sequences_dict
          = specRecords [['>', 'a'], ['g', 'c'], ['>', 'b'], ['t']]
        ∧ dictKeys (parseFasta [['>', 'a'], ['g', 'c'], ['>', 'b'], ['t']]).sequences_dict
          = headerIds [['>', 'a'], ['g', 'c'], ['>', 'b'], ['t']]) :=
  ⟨⟨by decide, by decide⟩,
   fasta_parse_matches_spec [['>', 'a'], ['g', 'c'], ['>', 'b'], ['t']]
     (by decide) (by decide)⟩

/-- Claim C2: `calculate_gc_content s` is `100 * (count of G + count of C) / len s`
for every nonempty sequence; for the FASTA notebook's redefinition (which
first uppercases) the same formula holds on every uppercase-normalized
sequence. -/
theorem calculate_gc_content_eq_formula (s : Line) (h : s ≠ []) :
    calculate_gc_content s
        = 100 * ((s.count 'G' : ℚ) + (s.count 'C' : ℚ)) / (s.length : ℚ)
    ∧ (pyUpper s = s →
        calculate_gc_content_fasta s
          = 100 * ((s.count 'G' : ℚ) + (s.count 'C' : ℚ)) / (s.length : ℚ)) := by
  have hlen : s.length ≠ 0 := fun hz => h (List.length_eq_zero.1 hz)
  have hq : (s.length : ℚ) ≠ 0 := Nat.cast_ne_zero.2 hlen
  constructor
  · rw [calculate_gc_content]
    simp only [if_neg hlen]
    field_simp
    ring
  · intro hup
    rw [calculate_gc_content_fasta]
    simp only [hup, if_neg hlen]
    field_simp
    ring

/-- Witness for C2 on the notebook's own test sequence `"ATGCGCGCAT"`. -/
theorem calculate_gc_content_eq_formula_witness :
    (['A', 'T', 'G', 'C', 'G', 'C', 'G', 'C', 'A', 'T'] : Line) ≠ []
    ∧ (calculate_gc_content ['A', 'T', 'G', 'C', 'G', 'C', 'G', 'C', 'A', 'T']
        = 100 * (((['A', 'T', 'G', 'C', 'G', 'C', 'G', 'C', 'A', 'T'] : Line).count 'G' : ℚ)
            + ((['A', 'T', 'G', 'C', 'G', 'C', 'G', 'C', 'A', 'T'] : Line).count 'C' : ℚ))
          / ((['A', 'T', 'G', 'C', 'G', 'C', 'G', 'C', 'A', 'T'] : Line).length : ℚ)
      ∧ (pyUpper ['A', 'T', 'G', 'C', 'G', 'C', 'G', 'C', 'A', 'T']
            = ['A', 'T', 'G', 'C', 'G', 'C', 'G', 'C', 'A', 'T'] →
          calculate_gc_content_fasta ['A', 'T', 'G', 'C', 'G', 'C', 'G', 'C', 'A', 'T']
            = 100 * (((['A', 'T', 'G', 'C', 'G', 'C', 'G', 'C', 'A', 'T'] : Line).count 'G' : ℚ)
                + ((['A', 'T', 'G', 'C', 'G', 'C', 'G', 'C', 'A', 'T'] : Line).count 'C' : ℚ))
              / ((['A', 'T', 'G', 'C', 'G', 'C', 'G', 'C', 'A', 'T'] : Line).length : ℚ))) :=
  ⟨by decide, calculate_gc_content_eq_formula _ (by decide)⟩

/-- Claim C3: a non-blank, non-header line arriving while
`current_sequence_id` is still `None` is reported (a warning naming the
stripped line is appended to the printed warnings) and skipped: the
mapping and the current id are left unchanged. -/
theorem seq_line_before_header_warns (st : ParseState) (raw : Line)
    (hcur : st.current_sequence_id = none)
    (hnb : pyStrip raw ≠ [])
    (hnh : startsWithGt (pyStrip raw) = false) :
    (parseStep st raw).sequences_dict = st.sequences_dict
    ∧ (parseStep st raw).current_sequence_id = none
    ∧ (parseStep st raw).warnings = st.warnings ++ [pyStrip raw] := by
  cases hl : pyStrip raw with
  | nil => exact absurd hl hnb
  | cons c cl =>
      rw [hl] at hnh
      have hstep : parseStep st raw = { st with warnings := st.warnings ++ [c :: cl] } := by
        simp [parseStep, hl, hnh, hcur]
      rw [hstep]
      exact ⟨rfl, hcur, rfl⟩

/-- Witness for C3: a stray sequence line on the initial state. -/
theorem seq_line_before_header_warns_witness :
    (initState.current_sequence_id = none
      ∧ pyStrip ['x'] ≠ [] ∧ startsWithGt (pyStrip ['x']) = false)
    ∧ ((parseStep initState ['x']).sequences_dict = initState.sequences_dict
      ∧ (parseStep initState ['x']).current_sequence_id = none
      ∧ (parseStep initState ['x']).warnings = initState.warnings ++ [pyStrip ['x']]) :=
  ⟨⟨by decide, by decide, by decide⟩,
   seq_line_before_header_warns initState ['x'] (by decide) (by decide) (by decide)⟩

/-- Claim C4: a line whose stripped text starts with the marker starts a
new record: the current id becomes the text after the marker, its
accumulated sequence is reset to the empty string, and folding any run of
non-header lines afterwards leaves that id mapped to the concatenation of
their uppercased, stripped, non-blank texts. -/
theorem header_line_starts_record (st : ParseState) (raw : Line) (seqLines : List Line)
    (hh : startsWithGt (pyStrip raw) = true)
    (hnohdr : ∀ l ∈ seqLines, startsWithGt (pyStrip l) = false) :
    (parseStep st raw).current_sequence_id = some ((pyStrip raw).drop 1)
    ∧ dlookup (parseStep st raw).sequences_dict ((pyStrip raw).drop 1) = some []
    ∧ dlookup (seqLines.foldl parseStep (parseStep st raw)).sequences_dict
        ((pyStrip raw).drop 1)
      = some (gatherSeq seqLines) := by
  cases hl : pyStrip raw with
  | nil => rw [hl] at hh; simp [startsWithGt] at hh
  | cons c cl =>
      rw [hl] at hh
      have hstep : parseStep st raw
          = ⟨dictSet st.sequences_dict cl [], some cl, st.warnings⟩ := by
        simp [parseStep, hl, hh]
      have hids : headerIds seqLines = [] := by
        rw [headerIds, specRecords_eq_nil seqLines hnohdr]
        rfl
      have hrec := parse_go_some seqLines (dictSet st.sequences_dict cl []) cl
        st.warnings (by rw [hids]; intro k hk; exact absurd hk (List.not_mem_nil k))
        (by rw [hids]; exact List.nodup_nil)
      rw [hstep]
      refine ⟨rfl, by simp [dlookup_dictSet], ?_⟩
      rw [hrec.1, specRecords_eq_nil seqLines hnohdr, List.append_nil]
      rw [dlookup_dictAddTo]
      simp [dlookup_dictSet]

/-- Witness for C4: a header followed by one sequence line. -/
theorem header_line_starts_record_witness :
    (startsWithGt (pyStrip ['>', 'a']) = true
      ∧ ∀ l ∈ [['g', 'c']], startsWithGt (pyStrip l) = false)
    ∧ ((parseStep initState ['>', 'a']).current_sequence_id
          = some ((pyStrip ['>', 'a']).drop 1)
      ∧ dlookup (parseStep initState ['>', 'a']).sequences_dict
          ((pyStrip ['>', 'a']).drop 1) = some []
      ∧ dlookup ([['g', 'c']].foldl parseStep (parseStep initState ['>', 'a'])).sequences_dict
          ((pyStrip ['>', 'a']).drop 1)
        = some (gatherSeq [['g', 'c']])) :=
  ⟨⟨by decide, by decide⟩,
   header_line_starts_record initState ['>', 'a'] [['g', 'c']] (by decide) (by decide)⟩

/-- Claim C5: with a zero denominator the division raises
`ZeroDivisionError`, which is caught and reported with a friendly message,
and the program continues past the block; opening a missing file raises
`FileNotFoundError`, caught and reported likewise; any other exception is
caught by the catch-all handler, which prints it, and execution also
continues. -/
theorem try_except_demo (files : List (String × String)) (e1 e2 : PyError)
    (hf : files.lookup "non_existent_file.txt" = none)
    (he1 : e1 ≠ PyError.zeroDivisionError)
    (he2 : e2 ≠ PyError.fileNotFoundError) :
    pyDivide 10 0 = Except.error PyError.zeroDivisionError
    ∧ divideCell 10 0
        = ["Oops! You tried to divide by zero. That is not allowed in math.",
           "Program continued gracefully!"]
    ∧ pyOpenRead files "non_existent_file.txt" = Except.error PyError.fileNotFoundError
    ∧ fileCell files "non_existent_file.txt"
        = ["Error: The file non_existent_file.txt was not found. Please check the name and path."]
    ∧ divideCellOutput (Except.error e1)
        = ["An unexpected error occurred: " ++ describeError e1,
           "Program continued gracefully!"]
    ∧ fileCellOutput "non_existent_file.txt" (Except.error e2)
        = ["An unexpected error occurred while opening the file: " ++ describeError e2] := by
  have hopen : pyOpenRead files "non_existent_file.txt"
      = Except.error PyError.fileNotFoundError := by
    rw [pyOpenRead, hf]
  refine ⟨rfl, rfl, hopen, ?_, ?_, ?_⟩
  · rw [fileCell, hopen]
    rfl
  · cases e1 with
    | zeroDivisionError => exact absurd rfl he1
    | fileNotFoundError => rfl
    | otherError msg => rfl
  · cases e2 with
    | zeroDivisionError => rfl
    | fileNotFoundError => exact absurd rfl he2
    | otherError msg => rfl

/-- Witness for C5: an empty directory and a stand-in unexpected exception. -/
theorem try_except_demo_witness :
    (([] : List (String × String)).lookup "non_existent_file.txt" = none
      ∧ PyError.otherError "boom" ≠ PyError.zeroDivisionError
      ∧ PyError.otherError "boom" ≠ PyError.fileNotFoundError)
    ∧ (divideCell 10 0
        = ["Oops! You tried to divide by zero. That is not allowed in math.",
           "Program continued gracefully!"]
      ∧ fileCell [] "non_existent_file.txt"
        = ["Error: The file non_existent_file.txt was not found. Please check the name and path."]
      ∧ divideCellOutput (Except.error (PyError.otherError "boom"))
        = ["An unexpected error occurred: " ++ describeError (PyError.otherError "boom"),
           "Program continued gracefully!"]) :=
  ⟨⟨rfl, by decide, by decide⟩,
   ⟨(try_except_demo [] (PyError.otherError "boom") (PyError.otherError "boom")
       rfl (by decide) (by decide)).2.1,
    (try_except_demo [] (PyError.otherError "boom") (PyError.otherError "boom")
       rfl (by decide) (by decide)).2.2.2.1,
    (try_except_demo [] (PyError.otherError "boom") (PyError.otherError "boom")
       rfl (by decide) (by decide)).2.2.2.2.1⟩⟩

/-- Claim C6: after parsing any input, and already after every prefix of
it, the mapping's keys are duplicate-free, and every key is the stripped
text after the marker of some header line of the input. -/
theorem parse_keys_unique (lines : List Line) :
    (∀ n : Nat, (dictKeys (parseFasta (lines.take n)).sequences_dict).Nodup)
    ∧ ∀ k, k ∈ dictKeys (parseFasta lines).sequences_dict →
        ∃ raw, raw ∈ lines ∧ startsWithGt (pyStrip raw) = true
          ∧ k = (pyStrip raw).drop 1 := by
  constructor
  · intro n
    exact nodup_keys_foldl (lines.take n) initState (by simp [initState, dictKeys])
  · intro k hk
    rcases keys_foldl_sources lines initState k hk with hmem | hsrc
    · simp [initState, dictKeys] at hmem
    · exact hsrc

/-- Witness for C6 at a concrete input and key. -/
theorem parse_keys_unique_witness :
    (dictKeys (parseFasta ([['>', 'a'], ['g', 'c']].take 1)).sequences_dict).Nodup
    ∧ ∃ raw, raw ∈ [['>', 'a'], ['g', 'c']] ∧ startsWithGt (pyStrip raw) = true
        ∧ ['a'] = (pyStrip raw).drop 1 :=
  ⟨(parse_keys_unique [['>', 'a'], ['g', 'c']]).1 1,
   (parse_keys_unique [['>', 'a'], ['g', 'c']]).2 ['a'] (by decide)⟩

/-- Claim C7: the loop is a single-pass scan: after exactly as many
iterations as there are lines it has consumed all input, its examination
trace is the input itself, in order, each line once, its state is the
parse of the input, and further iterations change nothing. -/
theorem parse_single_pass (lines : List Line) :
    (loopRun lines.length (loopInit lines)).pending = []
    ∧ (loopRun lines.length (loopInit lines)).visited = lines
    ∧ (loopRun lines.length (loopInit lines)).state = parseFasta lines
    ∧ ∀ n, lines.length ≤ n →
        loopRun n (loopInit lines) = loopRun lines.length (loopInit lines) := by
  have hfull : loopRun lines.length (loopInit lines)
      = ⟨[], lines, parseFasta lines⟩ := by
    rw [loopInit, loopRun_full lines [] initState, List.nil_append]
    rfl
  refine ⟨by rw [hfull], by rw [hfull], by rw [hfull], ?_⟩
  intro n hn
  obtain ⟨j, rfl⟩ : ∃ j, n = lines.length + j := ⟨n - lines.length, by omega⟩
  rw [loopRun_add, hfull, loopRun_done j _ rfl]

/-- Witness for C7 on a one-line input, with two extra idle iterations. -/
theorem parse_single_pass_witness :
    (loopRun [['>', 'a']].length (loopInit [['>', 'a']])).visited = [['>', 'a']]
    ∧ loopRun 3 (loopInit [['>', 'a']])
      = loopRun [['>', 'a']].length (loopInit [['>', 'a']]) :=
  ⟨(parse_single_pass [['>', 'a']]).2.1,
   (parse_single_pass [['>', 'a']]).2.2.2 3 (by decide)⟩

/-- Claim C8: when the same header identifier occurs on two or more header
lines, the mapping holds exactly one entry for it, whose value is the
accumulated sequence of the last record with that header (the earlier
records' data is discarded). -/
theorem duplicate_header_last_wins (lines : List Line) (k : Line)
    (hdup : 2 ≤ countKey (headerIds lines) k) :
    countKey (dictKeys (parseFasta lines).sequences_dict) k = 1
    ∧ dlookup (parseFasta lines).sequences_dict k = findLastBlock k lines := by
  have hlook := dlookup_parseFasta lines k
  have hmemh : k ∈ headerIds lines :=
    mem_of_countKey_pos _ _ (by omega)
  have hsome : (findLastBlock k lines).isSome = true :=
    findLastBlock_isSome_of_mem lines k hmemh
  have hmemk : k ∈ dictKeys (parseFasta lines).sequences_dict := by
    rw [← dlookup_isSome_iff_mem, hlook]
    exact hsome
  have hnd : (dictKeys (parseFasta lines).sequences_dict).Nodup :=
    nodup_keys_foldl lines initState (by simp [initState, dictKeys])
  exact ⟨countKey_eq_one_of_nodup_mem _ _ hnd hmemk, hlook⟩

/-- Witness for C8: the header `a` occurs twice; the surviving value is
the last block. -/
theorem duplicate_header_last_wins_witness :
    2 ≤ countKey (headerIds [['>', 'a'], ['g'], ['>', 'a'], ['c']]) ['a']
    ∧ (countKey (dictKeys (parseFasta [['>', 'a'], ['g'], ['>', 'a'], ['c']]).sequences_dict)
          ['a'] = 1
      ∧ dlookup (parseFasta [['>', 'a'], ['g'], ['>', 'a'], ['c']]).sequences_dict ['a']
          = findLastBlock ['a'] [['>', 'a'], ['g'], ['>', 'a'], ['c']]) :=
  ⟨by decide,
   duplicate_header_last_wins [['>', 'a'], ['g'], ['>', 'a'], ['c']] ['a'] (by decide)⟩

/-- Claim C9: on the empty sequence both GC functions return exactly 0,
and the `total_bases == 0` guard makes the division total: the explicitly
fallible version never fails and agrees with the function everywhere. -/
theorem gc_content_guard_total :
    calculate_gc_content [] = 0
    ∧ calculate_gc_content_fasta [] = 0
    ∧ ∀ s : Line, (calculate_gc_content_checked s).isSome = true
        ∧ calculate_gc_content_checked s = some (calculate_gc_content s) := by
  refine ⟨by simp [calculate_gc_content],
          by simp [calculate_gc_content_fasta, pyUpper], ?_⟩
  intro s
  by_cases h : s.length = 0
  · constructor <;>
      simp [calculate_gc_content_checked, calculate_gc_content, h]
  · have hq : (s.length : ℚ) ≠ 0 := Nat.cast_ne_zero.2 h
    constructor <;>
      simp [calculate_gc_content_checked, calculate_gc_content, h, safeDivQ, hq]

/-- Claim C10: the FASTA notebook's `calculate_gc_content` is
case-insensitive: it returns the same value on a sequence, on its
uppercased form, and on its lowercased form, because it normalizes to
uppercase before counting. -/
theorem gc_content_case_insensitive (s : Line) :
    calculate_gc_content_fasta (pyUpper s) = calculate_gc_content_fasta s
    ∧ calculate_gc_content_fasta (s.map pyToLower) = calculate_gc_content_fasta s := by
  have key : ∀ t : Line, pyUpper t = pyUpper s →
      calculate_gc_content_fasta t = calculate_gc_content_fasta s := by
    intro t ht
    simp only [calculate_gc_content_fasta, ht]
  exact ⟨key _ (pyUpper_pyUpper s), key _ (pyUpper_map_pyToLower s)⟩

end BioWorkshop
